import Mathlib

/-!
Verification of the relation-propagation / asynchronous-reindexing subsystem
and of the file service of `invenio-records-resources`.

The file service (`invenio_records_resources/services/files/service.py`) is
embedded directly from its source.  The relation-update handler, notification
registry, relation resolver and bulk-index queue are exercised by the
repository only through their tests, so they are modelled from the
specification, as recorded in each definition's doc comment.
-/

namespace InvenioRR

/-! ## Batched chunking used by the relation-update handler

Modelled from the spec, section 4.4: `on_relation_update` partitions
`changes` into consecutive chunks of at most `batch_limit` tuples, preserving
input order; the handler implementation itself is not under `src/`.
The recursion consumes the list slice-by-slice (`changes[:limit]`,
`changes[limit:]`); a fuel argument equal to the initial length makes the
definition total (with a positive limit each step strictly shrinks the list,
so the fuel is never exhausted).
-/

/-- Fueled worker for `chunkList`. -/
def chunkGo (L : Nat) : Nat → List α → List (List α)
  | _, [] => []
  | 0, _ :: _ => []
  | fuel + 1, x :: xs => ((x :: xs).take L) :: chunkGo L fuel ((x :: xs).drop L)

/-- Modelled from the spec: partition a list into consecutive chunks of at
most `L` elements, preserving input order. -/
def chunkList (L : Nat) (xs : List α) : List (List α) :=
  chunkGo L xs.length xs

theorem chunkGo_nil (L fuel : Nat) : chunkGo L fuel ([] : List α) = [] := by
  cases fuel <;> rfl

theorem chunkGo_fuel_irrel (L : Nat) (hL : 0 < L) :
    ∀ (fuel₁ fuel₂ : Nat) (xs : List α), xs.length ≤ fuel₁ → xs.length ≤ fuel₂ →
      chunkGo L fuel₁ xs = chunkGo L fuel₂ xs := by
  intro fuel₁
  induction fuel₁ with
  | zero =>
    intro fuel₂ xs h₁ _
    have : xs = [] := List.length_eq_zero.mp (Nat.le_zero.mp h₁)
    subst this
    simp [chunkGo_nil]
  | succ n ih =>
    intro fuel₂ xs h₁ h₂
    cases xs with
    | nil => simp [chunkGo_nil]
    | cons x xs =>
      cases fuel₂ with
      | zero => simp at h₂
      | succ m =>
        simp only [chunkGo]
        congr 1
        apply ih
        · simp only [List.length_drop, List.length_cons]
          simp only [List.length_cons] at h₁
          omega
        · simp only [List.length_drop, List.length_cons]
          simp only [List.length_cons] at h₂
          omega

theorem chunkList_nil (L : Nat) : chunkList L ([] : List α) = [] := rfl

theorem chunkList_cons (L : Nat) (hL : 0 < L) (x : α) (xs : List α) :
    chunkList L (x :: xs) =
      ((x :: xs).take L) :: chunkList L ((x :: xs).drop L) := by
  unfold chunkList
  simp only [List.length_cons, chunkGo]
  congr 1
  apply chunkGo_fuel_irrel L hL
  · have := (x :: xs).length_drop L
    simp only [List.length_cons] at this ⊢
    omega
  · exact Nat.le_refl _

theorem ceil_div_step (L n : Nat) (hL : 0 < L) (hn : 0 < n) :
    ((n - L) + L - 1) / L + 1 = (n + L - 1) / L := by
  rcases le_or_lt n L with h | h
  · have h0 : n - L = 0 := by omega
    rw [h0]
    have h1 : (0 + L - 1) / L = 0 := Nat.div_eq_of_lt (by omega)
    have h2 : (n + L - 1) / L = 1 := Nat.div_eq_of_lt_le (by omega) (by omega)
    omega
  · have h1 : n - L + L - 1 = n - 1 := by omega
    have h2 : n + L - 1 = (n - 1) + L := by omega
    rw [h1, h2, Nat.add_div_right _ hL]

/-- Number of chunks is the ceiling of `n / L`. -/
theorem chunkList_length (L : Nat) (hL : 0 < L) (xs : List α) :
    (chunkList L xs).length = (xs.length + L - 1) / L := by
  generalize hfuel : xs.length = n
  induction n using Nat.strong_induction_on generalizing xs with
  | _ n ih =>
    cases xs with
    | nil =>
      simp only [List.length_nil] at hfuel
      subst hfuel
      rw [chunkList_nil]
      simp only [List.length_nil, List.length_nil]
      exact (Nat.div_eq_of_lt (by omega)).symm
    | cons x xs =>
      rw [chunkList_cons L hL]
      simp only [List.length_cons] at hfuel
      have hdrop : ((x :: xs).drop L).length = (xs.length + 1) - L := by
        simp [List.length_drop]
      rw [List.length_cons,
        ih (xs.length + 1 - L) (by omega) ((x :: xs).drop L) hdrop, ← hfuel]
      exact ceil_div_step L (xs.length + 1) hL (by omega)

/-- Every chunk has at most `L` elements. -/
theorem chunkList_mem_length_le (L : Nat) (hL : 0 < L) (xs : List α) :
    ∀ c ∈ chunkList L xs, c.length ≤ L := by
  generalize hfuel : xs.length = n
  induction n using Nat.strong_induction_on generalizing xs with
  | _ n ih =>
    cases xs with
    | nil =>
      simp [chunkList_nil]
    | cons x xs =>
      rw [chunkList_cons L hL]
      intro c hc
      rcases List.mem_cons.mp hc with h | h
      · subst h
        simp [List.length_take]
      · simp only [List.length_cons] at hfuel
        have hdrop : ((x :: xs).drop L).length = (xs.length + 1) - L := by
          simp [List.length_drop]
        exact ih ((xs.length + 1) - L) (by omega) _ hdrop c h

/-- Chunk lengths sum to the input length. -/
theorem chunkList_sum_length (L : Nat) (hL : 0 < L) (xs : List α) :
    ((chunkList L xs).map List.length).sum = xs.length := by
  generalize hfuel : xs.length = n
  induction n using Nat.strong_induction_on generalizing xs with
  | _ n ih =>
    cases xs with
    | nil =>
      simp only [List.length_nil] at hfuel
      simp [chunkList_nil, ← hfuel]
    | cons x xs =>
      rw [chunkList_cons L hL]
      simp only [List.length_cons] at hfuel
      have hdrop : ((x :: xs).drop L).length = (xs.length + 1) - L := by
        simp [List.length_drop]
      simp only [List.map_cons, List.sum_cons]
      rw [ih ((xs.length + 1) - L) (by omega) _ hdrop]
      simp only [List.length_take, List.length_cons]
      omega

/-- A nonempty input yields a nonempty chunk list. -/
theorem chunkList_ne_nil (L : Nat) (hL : 0 < L) (x : α) (xs : List α) :
    chunkList L (x :: xs) ≠ [] := by
  rw [chunkList_cons L hL]
  exact List.cons_ne_nil _ _

/-- An input of length at most `L` forms a single chunk. -/
theorem chunkList_eq_single (L : Nat) (hL : 0 < L) (xs : List α)
    (hne : xs ≠ []) (hlen : xs.length ≤ L) : chunkList L xs = [xs] := by
  cases xs with
  | nil => exact absurd rfl hne
  | cons x tl =>
    rw [chunkList_cons L hL]
    have hdrop : (x :: tl).drop L = [] :=
      List.drop_eq_nil_of_le hlen
    rw [hdrop, chunkList_nil, List.take_of_length_le hlen]

/-- The final chunk carries the remainder `n % L` elements (or a full `L`
when `L` divides `n`). -/
theorem chunkList_getLast_length (L : Nat) (hL : 0 < L) (xs : List α)
    (c : List α) (h : (chunkList L xs).getLast? = some c) :
    c.length = if xs.length % L = 0 then L else xs.length % L := by
  generalize hfuel : xs.length = n
  induction n using Nat.strong_induction_on generalizing xs c with
  | _ n ih =>
    cases xs with
    | nil =>
      rw [chunkList_nil] at h
      simp at h
    | cons x tl =>
      rw [chunkList_cons L hL] at h
      simp only [List.length_cons] at hfuel
      rcases le_or_lt (tl.length + 1) L with hle | hgt
      · have hdrop : (x :: tl).drop L = [] :=
          List.drop_eq_nil_of_le (by simpa using hle)
        rw [hdrop, chunkList_nil, List.getLast?_singleton] at h
        have hc : c = (x :: tl).take L := (Option.some_inj.mp h).symm
        subst hc
        subst hfuel
        simp only [List.length_take, List.length_cons]
        rcases eq_or_lt_of_le hle with heq | hlt
        · rw [← heq]
          simp [Nat.mod_self]
        · rw [Nat.mod_eq_of_lt hlt]
          have hne0 : tl.length + 1 ≠ 0 := by omega
          simp only [hne0, if_false]
          omega
      · have hdroplen : ((x :: tl).drop L).length = (tl.length + 1) - L := by
          simp [List.length_drop]
        have hdropne : (x :: tl).drop L ≠ [] := by
          intro hcon
          rw [hcon] at hdroplen
          simp at hdroplen
          omega
        obtain ⟨y, ys, hys⟩ := List.exists_cons_of_ne_nil hdropne
        rw [hys] at h hdroplen
        rw [chunkList_cons L hL, List.getLast?_cons_cons,
          ← chunkList_cons L hL] at h
        have hlen2 : (y :: ys).length = (tl.length + 1) - L := hdroplen
        have hrec := ih ((tl.length + 1) - L) (by omega) (y :: ys) c h hlen2
        rw [hrec, ← hfuel]
        have hmod : (tl.length + 1 - L) % L = (tl.length + 1) % L :=
          (Nat.mod_eq_sub_mod (by omega)).symm
        rw [hmod]

/-- The `i`-th chunk consists exactly of positions `i*L .. i*L + L - 1` of
the input: chunk boundaries depend only on position. -/
theorem chunkList_getElem? (L : Nat) (hL : 0 < L) (xs : List α) (i : Nat)
    (h : i < (chunkList L xs).length) :
    (chunkList L xs)[i]? = some ((xs.drop (i * L)).take L) := by
  induction i generalizing xs with
  | zero =>
    cases xs with
    | nil => rw [chunkList_nil] at h; simp at h
    | cons x tl =>
      rw [chunkList_cons L hL]
      simp [List.drop_zero]
  | succ i ih =>
    cases xs with
    | nil => rw [chunkList_nil] at h; simp at h
    | cons x tl =>
      rw [chunkList_cons L hL] at h ⊢
      rw [List.getElem?_cons_succ]
      rw [ih ((x :: tl).drop L) (by simpa using h)]
      rw [List.drop_drop]
      have : L + i * L = (i + 1) * L := by ring
      rw [this]

/-! ## Relation-update handler

Modelled from the spec, section 4.4: the handler implementation
(`RecordService.on_relation_update` and the query construction) is not under
`src/`; only its test is.  A reindex invocation is represented by the
disjunctive query it carries, one clause per changed record in the chunk.
-/

/-- A change-notification tuple `(external_id, internal_id, revision_id)`. -/
structure Change where
  external_id : Nat
  internal_id : Nat
  revision_id : Nat
deriving DecidableEq, Repr

/-- One disjunctive clause: matches any record whose relation field at any
of the declared `paths` references `target` (a changed record's internal
id). -/
structure Clause where
  paths : List String
  target : Nat
deriving DecidableEq, Repr

/-- Modelled from the spec: the clause built for one changed record — match
on the record's internal id at the declared field paths. -/
def relationClause (paths : List String) (c : Change) : Clause :=
  { paths := paths, target := c.internal_id }

/-- A reindex invocation, carrying the disjunctive (bool/should) query. -/
structure ReindexCall where
  clauses : List Clause
deriving DecidableEq, Repr

/-- Modelled from the spec: `on_relation_update` partitions `changes` into
consecutive chunks of at most `batch_limit` tuples, builds one disjunctive
query per chunk (one clause per changed record) and invokes `reindex` once
per chunk; the returned list is the sequence of reindex calls issued, in
order. -/
def on_relation_update (paths : List String) (changes : List Change)
    (batch_limit : Nat) : List ReindexCall :=
  (chunkList batch_limit changes).map
    (fun chunk => ⟨chunk.map (relationClause paths)⟩)

/-- Modelled from the spec: chunk processing with a fallible `reindex`
call.  Each chunk's query is attempted in order; a failed reindex call is
tallied and processing continues with the remaining chunks.  Returns the
trace of `(query, succeeded)` attempts together with the aggregate number
of failed chunks. -/
def processChunks (reindexOk : List Clause → Bool) :
    List (List Clause) → List (List Clause × Bool) × Nat
  | [] => ([], 0)
  | q :: rest =>
    let ok := reindexOk q
    let r := processChunks reindexOk rest
    ((q, ok) :: r.1, (if ok then 0 else 1) + r.2)

/-- Modelled from the spec: `on_relation_update` driven by a fallible
reindex collaborator. -/
def on_relation_update_fallible (reindexOk : List Clause → Bool)
    (paths : List String) (changes : List Change) (batch_limit : Nat) :
    List (List Clause × Bool) × Nat :=
  processChunks reindexOk
    ((chunkList batch_limit changes).map (fun chunk => chunk.map (relationClause paths)))

theorem processChunks_fst (reindexOk : List Clause → Bool)
    (qs : List (List Clause)) :
    (processChunks reindexOk qs).1.map Prod.fst = qs := by
  induction qs with
  | nil => rfl
  | cons q rest ih => simp [processChunks, ih]

theorem processChunks_snd (reindexOk : List Clause → Bool)
    (qs : List (List Clause)) :
    (processChunks reindexOk qs).2 =
      (processChunks reindexOk qs).1.countP (fun p => !p.2) := by
  induction qs with
  | nil => rfl
  | cons q rest ih =>
    simp only [processChunks, List.countP_cons, ih]
    cases hq : reindexOk q
    · simp [hq]
      omega
    · simp [hq]

/-! ## Change notification registry

Modelled from the spec, section 4.1: the registry implementation
(`current_notifications_registry`) is not under `src/`.  The registry is the
ordered list of `(topic, callback)` registrations; `notify` returns the
trace of callback invocations it performs, each paired with the argument
it was given. -/

/-- Process-wide registry state: registrations in order of arrival. -/
structure NotificationRegistry (Cb : Type) where
  entries : List (String × Cb)
deriving DecidableEq, Repr

/-- Modelled from the spec: `register(topic, callback)` appends the callback
to the topic's subscriber list (creating the topic if absent). -/
def register (r : NotificationRegistry Cb) (topic : String) (cb : Cb) :
    NotificationRegistry Cb :=
  ⟨r.entries ++ [(topic, cb)]⟩

/-- The subscriber list of a topic, in registration order. -/
def subscribers (r : NotificationRegistry Cb) (topic : String) : List Cb :=
  (r.entries.filter (fun e => e.1 == topic)).map Prod.snd

/-- Modelled from the spec: `notify(topic, *args)` invokes every callback
registered for the topic, in registration order, passing `args` unchanged;
the result is the invocation trace. -/
def notify (r : NotificationRegistry Cb) (topic : String) (args : Args) :
    List (Cb × Args) :=
  (subscribers r topic).map (fun cb => (cb, args))

/-! ## Bulk index queue draining

Modelled from the spec, section 4.3: the indexer / bulk-queue
implementation (`process_bulk_queue`) is not under `src/`.  `indexOne`
abstracts the per-entry bulk write outcome; each queued entry is processed
independently and the pair of counts `(n_succeeded, n_failed)` is
returned. -/

def process_bulk_queue (indexOne : Entry → Bool) : List Entry → Nat × Nat
  | [] => (0, 0)
  | e :: rest =>
    let r := process_bulk_queue indexOne rest
    if indexOne e then (r.1 + 1, r.2) else (r.1, r.2 + 1)

/-! ## Relation resolver

Modelled from the spec, sections 4.2 and 9: the relations system field /
`RelationsComponent` implementation is not under `src/`.  A record is a
mapping of field paths to values; a relation field is stored as the stub
`{id: X}` and is dereferenced at read time into the referenced record's
data when the lookup succeeds. -/

inductive FieldValue where
  | scalar (s : String)
  | stub (id : Nat)
  | resolved (id : Nat) (data : String)
deriving DecidableEq, Repr

/-- Modelled from the spec: dereference one field — a stub `{id: X}` is
replaced by the referenced record's data when `lookup X` succeeds and left
untouched when the referenced record is deleted, missing or denied;
non-stub values pass through. -/
def resolveField (lookup : Nat → Option String) : FieldValue → FieldValue
  | .stub i =>
    match lookup i with
    | some d => .resolved i d
    | none => .stub i
  | v => v

/-- Modelled from the spec: `resolve(record)` dereferences every declared
relation path of the record into a read-only projection, leaving all other
fields unchanged. -/
def resolveRecord (lookup : Nat → Option String) (paths : List String)
    (record : List (String × FieldValue)) : List (String × FieldValue) :=
  record.map (fun f => if f.1 ∈ paths then (f.1, resolveField lookup f.2) else f)

/-! ## Store / index / queue pipeline (eventual consistency)

Modelled from the spec, sections 2, 4.5 and 8: the trigger path (commit to
store, notify, enqueue the referencing records) and the later queue drain
are implemented by the service components and the indexer, which are not
under `src/`.  The index stores, per referencing record, the denormalized
data of its relation target as of indexing time; a store read dereferences
the relation at read time. -/

structure SysState where
  store : Nat → Option String
  rel : Nat → Option Nat
  index : Nat → Option String
  queue : List Nat
  wrecIds : List Nat

/-- Read a referencing record from the store: the relation stub is
dereferenced against the current store. -/
def readStore (s : SysState) (b : Nat) : Option String :=
  (s.rel b).bind s.store

/-- Read a referencing record's denormalized target data from the index. -/
def readIndex (s : SysState) (b : Nat) : Option String :=
  s.index b

/-- Modelled from the spec: updating target record `a` commits the new
value to the store, then notifies; the subscribed handler queries for all
records referencing `a` and bulk-queues them for reindexing.  The index is
not touched. -/
def updateTarget (s : SysState) (a : Nat) (v : String) : SysState :=
  { s with
    store := fun x => if x = a then some v else s.store x,
    queue := s.queue ++ s.wrecIds.filter (fun b => s.rel b == some a) }

/-- Reindex a single queued record: its index document is rebuilt from the
current store. -/
def reindexOne (s : SysState) (b : Nat) : SysState :=
  { s with index := fun x => if x = b then readStore s b else s.index x }

/-- Modelled from the spec: `process_bulk_queue` drains the queue,
rebuilding the index document of every queued record from the store. -/
def drainQueue (s : SysState) : SysState :=
  s.queue.foldl reindexOne { s with queue := [] }

theorem reindexOne_store (s : SysState) (b : Nat) :
    (reindexOne s b).store = s.store := rfl

theorem reindexOne_rel (s : SysState) (b : Nat) :
    (reindexOne s b).rel = s.rel := rfl

theorem readStore_reindexOne (s : SysState) (b c : Nat) :
    readStore (reindexOne s b) c = readStore s c := rfl

theorem foldl_reindexOne_store (l : List Nat) (s : SysState) :
    (l.foldl reindexOne s).store = s.store := by
  induction l generalizing s with
  | nil => rfl
  | cons b rest ih => simp [List.foldl_cons, ih, reindexOne_store]

theorem foldl_reindexOne_rel (l : List Nat) (s : SysState) :
    (l.foldl reindexOne s).rel = s.rel := by
  induction l generalizing s with
  | nil => rfl
  | cons b rest ih => simp [List.foldl_cons, ih, reindexOne_rel]

theorem foldl_reindexOne_index_not_mem (l : List Nat) (s : SysState) (b : Nat)
    (h : b ∉ l) : (l.foldl reindexOne s).index b = s.index b := by
  induction l generalizing s with
  | nil => rfl
  | cons c rest ih =>
    have hbc : b ≠ c := fun hcon => h (hcon ▸ List.mem_cons_self c rest)
    have hbr : b ∉ rest := fun hcon => h (List.mem_cons_of_mem c hcon)
    rw [List.foldl_cons, ih _ hbr]
    simp [reindexOne, hbc]

theorem foldl_reindexOne_index_mem (l : List Nat) (s : SysState) (b : Nat)
    (h : b ∈ l) : (l.foldl reindexOne s).index b = readStore s b := by
  induction l generalizing s with
  | nil => simp at h
  | cons c rest ih =>
    rw [List.foldl_cons]
    by_cases hbr : b ∈ rest
    · rw [ih _ hbr, readStore_reindexOne]
    · have hbc : b = c := by
        rcases List.mem_cons.mp h with h' | h'
        · exact h'
        · exact absurd h' hbr
      subst hbc
      rw [foldl_reindexOne_index_not_mem _ _ _ hbr]
      simp [reindexOne]

/-! ## File service

Embedded from `invenio_records_resources/services/files/service.py`
(`FileServiceMixin`).  A record's files are the ordered key/entry mapping;
`hasFile` mirrors the truthiness of `rf.file` (content already attached).
Storage and database side effects are recorded as an effect trace in
program order. -/

structure FileEntry where
  key : String
  hasFile : Bool
deriving DecidableEq, Repr

structure Bucket where
  sizeLimit : Option Nat
deriving DecidableEq, Repr

structure FileRecord where
  files : List FileEntry
  bucket : Bucket
deriving DecidableEq, Repr

/-- Python truthiness of an optional integer: `None` and `0` are falsy. -/
def pyTruthy : Option Nat → Bool
  | some (_ + 1) => true
  | _ => false

inductive Effect where
  | objectVersionCreate (key : String)
  | setContents (key : String) (size : Option Nat)
  | recordCommit
  | sessionCommit
deriving DecidableEq, Repr

inductive FileServiceError where
  | fileSizeError (description : String)
deriving DecidableEq, Repr

inductive SetContentOutcome where
  | emptyDict
  | fileItem (key : String)
deriving DecidableEq, Repr

/-- Embedding of `FileServiceMixin.set_file_content`: look up the file
entry; with no entry, or an entry whose content is already attached, return
`{}`; then, when both `content_length` and the bucket's `size_limit` are
truthy and the former exceeds the latter, raise `FileSizeError`; otherwise
create the object version, store the content, and commit the session. -/
def set_file_content (record : FileRecord) (file_key : String)
    (content_length : Option Nat) :
    Except FileServiceError SetContentOutcome × List Effect :=
  match record.files.find? (fun f => f.key == file_key) with
  | none => (.ok .emptyDict, [])
  | some rf =>
    if rf.hasFile then (.ok .emptyDict, [])
    else
      let sizeLimit := record.bucket.sizeLimit
      if pyTruthy content_length && pyTruthy sizeLimit
          && decide (sizeLimit.getD 0 < content_length.getD 0) then
        (.error (.fileSizeError "File size limit exceeded."), [])
      else
        (.ok (.fileItem file_key),
          [.objectVersionCreate file_key,
           .setContents file_key content_length,
           .sessionCommit])

/-- The dict-like files mapping's `delete(key)`: return the removed entry
(if any) and the remaining mapping. -/
def deleteKey (files : List FileEntry) (k : String) :
    Option FileEntry × List FileEntry :=
  match files.find? (fun f => f.key == k) with
  | some f => (some f, files.filter (fun g => !(g.key == k)))
  | none => (none, files)

/-- Embedding of `FileServiceMixin.delete_file`: delete the file, then
`record.commit()` and `db.session.commit()`. -/
def delete_file (record : FileRecord) (file_key : String) :
    Option FileEntry × FileRecord × List Effect :=
  let d := deleteKey record.files file_key
  (d.1, { record with files := d.2 }, [.recordCommit, .sessionCommit])

/-- One iteration of the `delete_all_files` loop: delete the current file's
key and append the deleted entry to the results. -/
def deleteStep (acc : List FileEntry × List FileEntry) (f : FileEntry) :
    List FileEntry × List FileEntry :=
  let d := deleteKey acc.2 f.key
  (acc.1 ++ d.1.toList, d.2)

/-- Embedding of `FileServiceMixin.delete_all_files`: iterate over the
record's files deleting each key and collecting the deleted entries; no
`record.commit()` and no `db.session.commit()` are performed. -/
def delete_all_files (record : FileRecord) :
    List FileEntry × FileRecord × List Effect :=
  let r := record.files.foldl deleteStep ([], record.files)
  (r.1, { record with files := r.2 }, [])

/-! ## Claim theorems -/

/-- Claim C1: for every sequence `changes` of length `n` and every
`batch_limit L > 0`, `on_relation_update` issues exactly `⌈n/L⌉` reindex
calls, each query carrying at most `L` disjunctive clauses, with the clause
counts summing to `n`; `n = 0` issues no query, `n ≤ L` issues exactly one
query with `n` clauses, and for `n > L` the last query has `n % L` clauses
(or `L` when `L` divides `n`). -/
theorem on_relation_update_batching (paths : List String)
    (changes : List Change) (L : Nat) (hL : 0 < L) :
    (on_relation_update paths changes L).length
        = (changes.length + L - 1) / L
    ∧ (∀ call ∈ on_relation_update paths changes L,
        call.clauses.length ≤ L)
    ∧ ((on_relation_update paths changes L).map
        (fun call => call.clauses.length)).sum = changes.length
    ∧ (changes = [] → on_relation_update paths changes L = [])
    ∧ (changes ≠ [] → changes.length ≤ L →
        on_relation_update paths changes L
          = [⟨changes.map (relationClause paths)⟩])
    ∧ (L < changes.length → ∀ call,
        (on_relation_update paths changes L).getLast? = some call →
          call.clauses.length
            = if changes.length % L = 0 then L else changes.length % L) := by
  refine ⟨?_, ?_, ?_, ?_, ?_, ?_⟩
  · simp [on_relation_update, chunkList_length L hL]
  · intro call hc
    obtain ⟨chunk, hchunk, rfl⟩ := List.mem_map.mp hc
    simpa using chunkList_mem_length_le L hL changes chunk hchunk
  · rw [on_relation_update, List.map_map]
    have hfun : ((fun call : ReindexCall => call.clauses.length)
        ∘ fun chunk : List Change =>
          ({ clauses := chunk.map (relationClause paths) } : ReindexCall))
        = fun chunk : List Change => chunk.length := by
      funext chunk
      simp
    rw [hfun]
    exact chunkList_sum_length L hL changes
  · intro h
    subst h
    simp [on_relation_update, chunkList_nil]
  · intro hne hlen
    rw [on_relation_update, chunkList_eq_single L hL changes hne hlen,
      List.map_singleton]
  · intro _ call hlast
    rw [on_relation_update, List.getLast?_map] at hlast
    obtain ⟨chunk, hchunk, hcall⟩ := Option.map_eq_some'.mp hlast
    rw [← hcall]
    simpa using chunkList_getLast_length L hL changes chunk hchunk

theorem on_relation_update_batching_witness :
    (0 : Nat) < 2
    ∧ ((on_relation_update ["a"] [⟨1, 1, 1⟩, ⟨2, 2, 1⟩, ⟨3, 3, 1⟩] 2).length
          = (([⟨1, 1, 1⟩, ⟨2, 2, 1⟩, ⟨3, 3, 1⟩] : List Change).length + 2 - 1)
              / 2
      ∧ (∀ call ∈ on_relation_update ["a"]
            [⟨1, 1, 1⟩, ⟨2, 2, 1⟩, ⟨3, 3, 1⟩] 2,
          call.clauses.length ≤ 2)
      ∧ ((on_relation_update ["a"] [⟨1, 1, 1⟩, ⟨2, 2, 1⟩, ⟨3, 3, 1⟩] 2).map
          (fun call => call.clauses.length)).sum
          = ([⟨1, 1, 1⟩, ⟨2, 2, 1⟩, ⟨3, 3, 1⟩] : List Change).length
      ∧ (([⟨1, 1, 1⟩, ⟨2, 2, 1⟩, ⟨3, 3, 1⟩] : List Change) = [] →
          on_relation_update ["a"] [⟨1, 1, 1⟩, ⟨2, 2, 1⟩, ⟨3, 3, 1⟩] 2 = [])
      ∧ (([⟨1, 1, 1⟩, ⟨2, 2, 1⟩, ⟨3, 3, 1⟩] : List Change) ≠ [] →
          ([⟨1, 1, 1⟩, ⟨2, 2, 1⟩, ⟨3, 3, 1⟩] : List Change).length ≤ 2 →
          on_relation_update ["a"] [⟨1, 1, 1⟩, ⟨2, 2, 1⟩, ⟨3, 3, 1⟩] 2
            = [⟨([⟨1, 1, 1⟩, ⟨2, 2, 1⟩, ⟨3, 3, 1⟩] : List Change).map
                (relationClause ["a"])⟩])
      ∧ (2 < ([⟨1, 1, 1⟩, ⟨2, 2, 1⟩, ⟨3, 3, 1⟩] : List Change).length →
          ∀ call,
            (on_relation_update ["a"]
              [⟨1, 1, 1⟩, ⟨2, 2, 1⟩, ⟨3, 3, 1⟩] 2).getLast? = some call →
            call.clauses.length
              = if ([⟨1, 1, 1⟩, ⟨2, 2, 1⟩, ⟨3, 3, 1⟩] :
                    List Change).length % 2 = 0
                then 2
                else ([⟨1, 1, 1⟩, ⟨2, 2, 1⟩, ⟨3, 3, 1⟩] :
                    List Change).length % 2)) :=
  ⟨by decide,
   on_relation_update_batching ["a"] [⟨1, 1, 1⟩, ⟨2, 2, 1⟩, ⟨3, 3, 1⟩] 2
     (by decide)⟩

/-- Claim C2: `on_relation_update` partitions its input into consecutive
chunks of at most `batch_limit` tuples preserving input order: the `i`-th
reindex call's clauses are exactly those of positions
`i*batch_limit .. min((i+1)*batch_limit, n) - 1` of `changes`, so chunk
boundaries depend only on position, never on tuple content. -/
theorem on_relation_update_positional (paths : List String)
    (changes : List Change) (L i : Nat) (hL : 0 < L)
    (hi : i < (on_relation_update paths changes L).length) :
    (on_relation_update paths changes L)[i]?
      = some ⟨((changes.drop (i * L)).take L).map (relationClause paths)⟩ := by
  rw [on_relation_update, List.getElem?_map,
    chunkList_getElem? L hL changes i (by simpa [on_relation_update] using hi)]
  rfl

theorem on_relation_update_positional_witness :
    (0 : Nat) < 2
    ∧ 1 < (on_relation_update ["a"] [⟨1, 1, 1⟩, ⟨2, 2, 1⟩, ⟨3, 3, 1⟩] 2).length
    ∧ (on_relation_update ["a"] [⟨1, 1, 1⟩, ⟨2, 2, 1⟩, ⟨3, 3, 1⟩] 2)[1]?
        = some ⟨((([⟨1, 1, 1⟩, ⟨2, 2, 1⟩, ⟨3, 3, 1⟩] :
            List Change).drop (1 * 2)).take 2).map (relationClause ["a"])⟩ :=
  ⟨by decide, by decide,
   on_relation_update_positional ["a"] [⟨1, 1, 1⟩, ⟨2, 2, 1⟩, ⟨3, 3, 1⟩] 2 1
     (by decide) (by decide)⟩

/-- Claim C3: `notify(topic, *args)` invokes all callbacks registered for
the topic, in exactly registration order, passing each the identical
arguments unchanged (two successive registrations are invoked after the
previously registered ones, first-registered first); a topic with no
subscribers makes `notify` a no-op. -/
theorem notify_fanout {Cb Args : Type} (r : NotificationRegistry Cb)
    (topic : String) (cb1 cb2 : Cb) (args : Args) :
    notify (register (register r topic cb1) topic cb2) topic args
      = notify r topic args ++ [(cb1, args), (cb2, args)]
    ∧ (subscribers r topic = [] → notify r topic args = []) := by
  constructor
  · simp [notify, subscribers, register, List.filter_append]
  · intro h
    simp [notify, h]

theorem notify_fanout_witness :
    notify (register (register (⟨[]⟩ : NotificationRegistry Nat) "t" 10) "t" 20)
        "t" (7 : Nat)
      = notify (⟨[]⟩ : NotificationRegistry Nat) "t" (7 : Nat)
          ++ [(10, 7), (20, 7)]
    ∧ (subscribers (⟨[]⟩ : NotificationRegistry Nat) "t" = [] →
        notify (⟨[]⟩ : NotificationRegistry Nat) "t" (7 : Nat) = []) :=
  notify_fanout ⟨[]⟩ "t" 10 20 7

/-- Claim C5: `process_bulk_queue` always returns a pair
`(n_succeeded, n_failed)`; every entry is processed independently, each
failure is accounted for in `n_failed` (never silently dropped), and the
two counts partition the queue. -/
theorem process_bulk_queue_counts {Entry : Type} (indexOne : Entry → Bool)
    (entries : List Entry) :
    process_bulk_queue indexOne entries
      = (entries.countP indexOne, entries.countP (fun e => !(indexOne e)))
    ∧ (process_bulk_queue indexOne entries).1
        + (process_bulk_queue indexOne entries).2 = entries.length := by
  have h : process_bulk_queue indexOne entries
      = (entries.countP indexOne, entries.countP (fun e => !(indexOne e))) := by
    induction entries with
    | nil => rfl
    | cons e rest ih =>
      simp only [process_bulk_queue, ih, List.countP_cons]
      cases he : indexOne e
      · simp [he]
      · simp [he]
  refine ⟨h, ?_⟩
  rw [h]
  simpa using (entries.length_eq_countP_add_countP indexOne).symm

/-- Claim C6: resolving a record whose relation stub `{id: X}` cannot be
dereferenced (referenced record deleted, missing or permission-denied)
leaves that field equal to the unresolved stub rather than raising, and the
failure does not prevent the other fields of the record from being
resolved. -/
theorem resolve_degrades (lookup : Nat → Option String) (paths : List String)
    (record : List (String × FieldValue)) (p : String) (x : Nat)
    (hmem : (p, FieldValue.stub x) ∈ record) (hfail : lookup x = none) :
    (p, FieldValue.stub x) ∈ resolveRecord lookup paths record
    ∧ (∀ q y d, (q, FieldValue.stub y) ∈ record → q ∈ paths →
        lookup y = some d →
          (q, FieldValue.resolved y d) ∈ resolveRecord lookup paths record) := by
  constructor
  · have := List.mem_map_of_mem
      (fun f : String × FieldValue =>
        if f.1 ∈ paths then (f.1, resolveField lookup f.2) else f) hmem
    by_cases hp : p ∈ paths
    · simpa [resolveRecord, resolveField, hp, hfail] using this
    · simpa [resolveRecord, hp] using this
  · intro q y d hqmem hq hy
    have := List.mem_map_of_mem
      (fun f : String × FieldValue =>
        if f.1 ∈ paths then (f.1, resolveField lookup f.2) else f) hqmem
    simpa [resolveRecord, resolveField, hq, hy] using this

theorem resolve_degrades_witness :
    ((("a", FieldValue.stub 1) : String × FieldValue)
        ∈ [("a", FieldValue.stub 1), ("b", FieldValue.stub 2)])
    ∧ ((fun n => if n = 2 then some "t" else none) 1 = none)
    ∧ (("a", FieldValue.stub 1)
        ∈ resolveRecord (fun n => if n = 2 then some "t" else none) ["a", "b"]
            [("a", FieldValue.stub 1), ("b", FieldValue.stub 2)]
      ∧ (∀ q y d, (q, FieldValue.stub y)
            ∈ [("a", FieldValue.stub 1), ("b", FieldValue.stub 2)] →
          q ∈ ["a", "b"] →
          (fun n => if n = 2 then some "t" else none) y = some d →
            (q, FieldValue.resolved y d)
              ∈ resolveRecord (fun n => if n = 2 then some "t" else none)
                  ["a", "b"]
                  [("a", FieldValue.stub 1), ("b", FieldValue.stub 2)])) :=
  ⟨by decide, by decide,
   resolve_degrades (fun n => if n = 2 then some "t" else none) ["a", "b"]
     [("a", FieldValue.stub 1), ("b", FieldValue.stub 2)] "a" 1
     (by decide) (by decide)⟩

/-- Claim C7: for every chunked invocation, if the reindex call for one
chunk fails, the handler still attempts the reindex calls for all
remaining chunks — the attempted queries are exactly the queries of
`on_relation_update`, whatever the failure pattern — and the aggregate
failure count it reports equals the number of failed attempts. -/
theorem on_relation_update_failure_isolation
    (reindexOk : List Clause → Bool) (paths : List String)
    (changes : List Change) (L : Nat) :
    (on_relation_update_fallible reindexOk paths changes L).1.map Prod.fst
      = (on_relation_update paths changes L).map ReindexCall.clauses
    ∧ (on_relation_update_fallible reindexOk paths changes L).2
      = (on_relation_update_fallible reindexOk paths changes L).1.countP
          (fun p => !p.2) := by
  constructor
  · rw [on_relation_update_fallible, processChunks_fst,
      on_relation_update, List.map_map]
    rfl
  · exact processChunks_snd _ _

/-- Claim C4: after target record `a` (referenced by records `b` and `c`)
is updated, every subsequent store read of `b` and `c` already
dereferences to the new value, every index read of `b` and `c` still
returns the old value while the bulk queue is undrained, and after the
queue drain both the store and the index reads return the new value. -/
theorem eventual_consistency (s : SysState) (a b c : Nat)
    (vold vnew : String)
    (hb : s.rel b = some a) (hc : s.rel c = some a)
    (hbi : s.index b = some vold) (hci : s.index c = some vold)
    (hbw : b ∈ s.wrecIds) (hcw : c ∈ s.wrecIds) :
    (readStore (updateTarget s a vnew) b = some vnew
      ∧ readStore (updateTarget s a vnew) c = some vnew)
    ∧ (readIndex (updateTarget s a vnew) b = some vold
      ∧ readIndex (updateTarget s a vnew) c = some vold)
    ∧ (readIndex (drainQueue (updateTarget s a vnew)) b = some vnew
      ∧ readIndex (drainQueue (updateTarget s a vnew)) c = some vnew
      ∧ readStore (drainQueue (updateTarget s a vnew)) b = some vnew
      ∧ readStore (drainQueue (updateTarget s a vnew)) c = some vnew) := by
  have hbq : b ∈ (updateTarget s a vnew).queue := by
    simp [updateTarget, List.mem_filter, hbw, hb]
  have hcq : c ∈ (updateTarget s a vnew).queue := by
    simp [updateTarget, List.mem_filter, hcw, hc]
  refine ⟨⟨?_, ?_⟩, ⟨?_, ?_⟩, ?_, ?_, ?_, ?_⟩
  · simp [readStore, updateTarget, hb]
  · simp [readStore, updateTarget, hc]
  · simp [readIndex, updateTarget, hbi]
  · simp [readIndex, updateTarget, hci]
  · rw [readIndex, drainQueue, foldl_reindexOne_index_mem _ _ _ hbq]
    simp [readStore, updateTarget, hb]
  · rw [readIndex, drainQueue, foldl_reindexOne_index_mem _ _ _ hcq]
    simp [readStore, updateTarget, hc]
  · rw [readStore, drainQueue, foldl_reindexOne_rel, foldl_reindexOne_store]
    simp [updateTarget, hb]
  · rw [readStore, drainQueue, foldl_reindexOne_rel, foldl_reindexOne_store]
    simp [updateTarget, hc]

/-- Concrete pipeline state for the Claim C4 witness: target record `0`
holds `"t"`, records `1` and `2` reference it, both are indexed with the
old denormalized value. -/
def sampleSys : SysState where
  store := fun n => if n = 0 then some "t" else none
  rel := fun n => if n = 1 ∨ n = 2 then some 0 else none
  index := fun n => if n = 1 ∨ n = 2 then some "t" else none
  queue := []
  wrecIds := [1, 2]

theorem eventual_consistency_witness :
    (sampleSys.rel 1 = some 0 ∧ sampleSys.rel 2 = some 0
      ∧ sampleSys.index 1 = some "t" ∧ sampleSys.index 2 = some "t"
      ∧ 1 ∈ sampleSys.wrecIds ∧ 2 ∈ sampleSys.wrecIds)
    ∧ ((readStore (updateTarget sampleSys 0 "n") 1 = some "n"
        ∧ readStore (updateTarget sampleSys 0 "n") 2 = some "n")
      ∧ (readIndex (updateTarget sampleSys 0 "n") 1 = some "t"
        ∧ readIndex (updateTarget sampleSys 0 "n") 2 = some "t")
      ∧ (readIndex (drainQueue (updateTarget sampleSys 0 "n")) 1 = some "n"
        ∧ readIndex (drainQueue (updateTarget sampleSys 0 "n")) 2 = some "n"
        ∧ readStore (drainQueue (updateTarget sampleSys 0 "n")) 1 = some "n"
        ∧ readStore (drainQueue (updateTarget sampleSys 0 "n")) 2
            = some "n")) :=
  ⟨⟨by decide, by decide, by decide, by decide, by decide, by decide⟩,
   eventual_consistency sampleSys 0 1 2 "t" "n" (by decide) (by decide)
     (by decide) (by decide) (by decide) (by decide)⟩

/-- Claim C8 counterexample: `content_length = 1` is non-None and exceeds
the bucket's size limit `0`, yet no file-size error is raised.  With no
entry for the key the call returns the empty dict; with a pending entry the
Python truthiness of the `0` limit skips the size check entirely and the
object version is created and content stored. -/
theorem set_file_content_size_cex :
    set_file_content { files := [], bucket := { sizeLimit := some 0 } }
        "f" (some 1)
      = (Except.ok SetContentOutcome.emptyDict, [])
    ∧ set_file_content
        { files := [{ key := "f", hasFile := false }],
          bucket := { sizeLimit := some 0 } } "f" (some 1)
      = (Except.ok (SetContentOutcome.fileItem "f"),
         [Effect.objectVersionCreate "f", Effect.setContents "f" (some 1),
          Effect.sessionCommit]) := by
  constructor
  · rfl
  · rfl

/-- Claim C8 (amended): for every call to `set_file_content` with a
non-None `content_length` on a record holding a pending file entry for
`file_key` (no content attached yet) whose bucket has a positive size
limit, if `content_length` exceeds the size limit then `FileSizeError` is
raised before any object version is created: the effect trace is empty, so
no content is stored and nothing is committed. -/
theorem set_file_content_size_limit (record : FileRecord) (file_key : String)
    (rf : FileEntry) (cl sl : Nat)
    (hrf : record.files.find? (fun f => f.key == file_key) = some rf)
    (hnf : rf.hasFile = false)
    (hsl : record.bucket.sizeLimit = some sl)
    (hpos : 0 < sl) (hgt : sl < cl) :
    set_file_content record file_key (some cl)
      = (Except.error (FileServiceError.fileSizeError
          "File size limit exceeded."), []) := by
  obtain ⟨m, rfl⟩ : ∃ m, cl = m + 1 := ⟨cl - 1, by omega⟩
  obtain ⟨k, rfl⟩ : ∃ k, sl = k + 1 := ⟨sl - 1, by omega⟩
  simp only [set_file_content, hrf]
  simp [hnf]
  rw [hsl]
  simp [pyTruthy, Option.getD]
  omega

/-- Concrete record with one pending file entry, used by the Claim C8
witness. -/
def samplePendingRecord : FileRecord :=
  { files := [{ key := "f", hasFile := false }],
    bucket := { sizeLimit := some 5 } }

theorem set_file_content_size_limit_witness :
    (samplePendingRecord.files.find? (fun f => f.key == "f")
        = some { key := "f", hasFile := false }
      ∧ ({ key := "f", hasFile := false } : FileEntry).hasFile = false
      ∧ samplePendingRecord.bucket.sizeLimit = some 5
      ∧ (0 : Nat) < 5 ∧ (5 : Nat) < 10)
    ∧ set_file_content samplePendingRecord "f" (some 10)
        = (Except.error (FileServiceError.fileSizeError
            "File size limit exceeded."), []) :=
  ⟨⟨by decide, by decide, by decide, by decide, by decide⟩,
   set_file_content_size_limit samplePendingRecord "f"
     { key := "f", hasFile := false } 10 5 (by decide) (by decide)
     (by decide) (by decide) (by decide)⟩

/-- Claim C9: when the record has no file entry for `file_key`, or the
existing entry already has content attached, `set_file_content` returns
the empty dict without raising, without writing any content, and without
committing the database session. -/
theorem set_file_content_noop (record : FileRecord) (file_key : String)
    (content_length : Option Nat)
    (h : record.files.find? (fun f => f.key == file_key) = none
      ∨ ∃ rf, record.files.find? (fun f => f.key == file_key) = some rf
          ∧ rf.hasFile = true) :
    set_file_content record file_key content_length
      = (Except.ok SetContentOutcome.emptyDict, []) := by
  rcases h with h | ⟨rf, hrf, hf⟩
  · simp [set_file_content, h]
  · simp [set_file_content, hrf, hf]

theorem set_file_content_noop_witness :
    (({ files := [], bucket := { sizeLimit := none } } :
        FileRecord).files.find? (fun f => f.key == "f") = none
      ∨ ∃ rf, ({ files := [], bucket := { sizeLimit := none } } :
          FileRecord).files.find? (fun f => f.key == "f") = some rf
          ∧ rf.hasFile = true)
    ∧ set_file_content { files := [], bucket := { sizeLimit := none } } "f"
        (some 3) = (Except.ok SetContentOutcome.emptyDict, []) :=
  ⟨Or.inl rfl,
   set_file_content_noop { files := [], bucket := { sizeLimit := none } }
     "f" (some 3) (Or.inl rfl)⟩

theorem deleteKey_head (f : FileEntry) (rest : List FileEntry)
    (h : f.key ∉ rest.map FileEntry.key) :
    deleteKey (f :: rest) f.key = (some f, rest) := by
  unfold deleteKey
  rw [List.find?_cons_of_pos _ (by simp)]
  have hrest : rest.filter (fun g => !(g.key == f.key)) = rest :=
    List.filter_eq_self.mpr (fun g hg => by
      have hne : g.key ≠ f.key := fun hcon =>
        h (hcon ▸ List.mem_map_of_mem FileEntry.key hg)
      simp [hne])
  rw [List.filter_cons_of_neg (by simp), hrest]

theorem foldl_deleteStep (files : List FileEntry) :
    ∀ acc : List FileEntry,
      (files.map FileEntry.key).Nodup →
      files.foldl deleteStep (acc, files) = (acc ++ files, []) := by
  induction files with
  | nil => intro acc _; simp
  | cons f rest ih =>
    intro acc hnd
    rw [List.map_cons, List.nodup_cons] at hnd
    rw [List.foldl_cons]
    have hstep : deleteStep (acc, f :: rest) f = (acc ++ [f], rest) := by
      simp [deleteStep, deleteKey_head f rest hnd.1]
    rw [hstep, ih (acc ++ [f]) hnd.2]
    simp

/-- Claim C10: `delete_all_files` deletes every file entry from the
record's in-memory files mapping and returns the list of deleted entries,
but performs no `record.commit()` and no `db.session.commit()` — unlike
`delete_file`, whose effect trace commits both the record and the
database session. -/
theorem delete_all_files_frame (record : FileRecord) (file_key : String)
    (hnd : (record.files.map FileEntry.key).Nodup) :
    delete_all_files record
      = (record.files, { record with files := [] }, [])
    ∧ (delete_file record file_key).2.2
        = [Effect.recordCommit, Effect.sessionCommit] := by
  constructor
  · unfold delete_all_files
    rw [foldl_deleteStep record.files [] hnd]
    simp
  · rfl

/-- Concrete record with two files, used by the Claim C10 witness. -/
def sampleFileRecord : FileRecord :=
  { files := [{ key := "a", hasFile := true },
              { key := "b", hasFile := false }],
    bucket := { sizeLimit := none } }

theorem delete_all_files_frame_witness :
    (sampleFileRecord.files.map FileEntry.key).Nodup
    ∧ (delete_all_files sampleFileRecord
        = (sampleFileRecord.files, { sampleFileRecord with files := [] }, [])
      ∧ (delete_file sampleFileRecord "a").2.2
          = [Effect.recordCommit, Effect.sessionCommit]) :=
  ⟨by decide, delete_all_files_frame sampleFileRecord "a" (by decide)⟩

end InvenioRR
